import Mathlib

/-!
Verification of the fixed-point inference scripts of `inferencja-wagi`.

The Python sources are shallowly embedded: numpy fixed-width integers become
`Int` together with explicit two's-complement reduction (`wrap16`, `wrap32`,
`wrap64`), numpy arrays become `List Int` (or nested lists for volumes), and
each simulation routine becomes a Lean function with the same structure as the
source loop it was translated from.
-/

namespace Inferencja

/-- Interpret an unsigned 32-bit pattern (an integer in `[0, 2^32)`) as a
signed two's-complement value, as `int(x,16) if int(x,16) < 2**31 else
int(x,16) - 2**32` does in `simulate_fpga_inference.load_model_and_scaler`. -/
def toS32 (u : Int) : Int :=
  if u < 2147483648 then u else u - 4294967296

/-- Reduction of an integer into a signed 32-bit register, the effect of
`np.int32(...)` on an out-of-range value (two's-complement wraparound). -/
def wrap32 (a : Int) : Int :=
  toS32 (a % 4294967296)

/-- Reduction into a signed 16-bit register, the effect of multiplying two
`np.int16` values in `fpga_inference_with_overflow`. -/
def wrap16 (a : Int) : Int :=
  if a % 65536 < 32768 then a % 65536 else a % 65536 - 65536

/-- Reduction into a signed 64-bit register, the effect of `np.int64`
arithmetic in the layer-2/3 accumulation loops. -/
def wrap64 (a : Int) : Int :=
  if a % 18446744073709551616 < 9223372036854775808 then
    a % 18446744073709551616
  else
    a % 18446744073709551616 - 18446744073709551616

/-- Saturation to the `int32` range, the
`if acc > 2147483647: ... elif acc < -2147483648: ...` block of
`fpga_inference_simulation` (layers 2 and 3). -/
def clamp32 (a : Int) : Int :=
  if a > 2147483647 then 2147483647
  else if a < -2147483648 then -2147483648
  else a

/-- Arithmetic (sign-extending) right shift of a 32-bit two's-complement
register, the effect of `acc >> SHIFT` on an `np.int32` value: the unsigned
bit pattern `u` is shifted right and the vacated high bits are filled with
copies of the sign bit. -/
def sra32 (a : Int) (s : Nat) : Int :=
  if a % 4294967296 < 2147483648 then
    a % 4294967296 / 2 ^ s
  else
    a % 4294967296 / 2 ^ s - 2 ^ (32 - min s 32)

/-- `max(0, acc)`, the ReLU activation used after layers 1 and 2. -/
def relu (a : Int) : Int := max 0 a

/-- Exact (unbounded) dot product of two vectors, the mathematical sum the
spec refers to when it speaks of "the full dot product". -/
def dotProd (xs ws : List Int) : Int :=
  (List.zipWith (fun x w => x * w) xs ws).sum

/-! ## FixedWidthCodec (`regresja_softmax.py` export, `simulate_fpga_inference.py` import)

`regresja_softmax.py` writes each int8 weight as `val + 256 if val < 0` in two
hex digits and each int32 bias as `val + 2**32 if val < 0` in eight hex
digits; `simulate_fpga_inference.load_model_and_scaler` reads them back with
`int(x,16) if int(x,16) < 128 else int(x,16) - 256` (respectively `2**31` /
`2**32`).  The hex text itself is a faithful numeral at these fixed widths, so
the codec is embedded at the level of the encoded numeric value. -/

/-- Two's-complement export of an int8 value (`W.mem` writer). -/
def encode8 (v : Int) : Int :=
  if v < 0 then v + 256 else v

/-- Two's-complement import of an int8 value (`W.mem` reader). -/
def decode8 (u : Int) : Int :=
  if u < 128 then u else u - 256

/-- Two's-complement export of an int32 value (`B.mem` writer). -/
def encode32 (v : Int) : Int :=
  if v < 0 then v + 4294967296 else v

/-- Two's-complement import of an int32 value (`B.mem` reader). -/
def decode32 (u : Int) : Int :=
  if u < 2147483648 then u else u - 4294967296

/-- Claim C2: for every representable signed integer `v` of width 8 or 32,
including the most negative value, decoding the two's-complement encoding of
`v` yields `v` back. -/
theorem decode_encode_roundtrip (v8 v32 : Int)
    (h8 : -128 ≤ v8 ∧ v8 ≤ 127)
    (h32 : -2147483648 ≤ v32 ∧ v32 ≤ 2147483647) :
    decode8 (encode8 v8) = v8 ∧ decode32 (encode32 v32) = v32 := by
  unfold decode8 encode8 decode32 encode32
  split_ifs <;> omega

/-- Round trip checked at the boundary values, in particular the most negative
value of each width. -/
theorem decode_encode_roundtrip_witness :
    ((-128 : Int) ≤ -128 ∧ (-128 : Int) ≤ 127) ∧
    ((-2147483648 : Int) ≤ -2147483648 ∧ (-2147483648 : Int) ≤ 2147483647) ∧
    (decode8 (encode8 (-128)) = -128 ∧ decode32 (encode32 (-2147483648)) = -2147483648) :=
  ⟨⟨by decide, by decide⟩, ⟨by decide, by decide⟩,
    decode_encode_roundtrip (-128) (-2147483648) ⟨by decide, by decide⟩ ⟨by decide, by decide⟩⟩

/-! ## Claim C4: the post-accumulation right shift -/

/-- The arithmetic shift of a pattern with the sign bit clear is plain
division of the pattern. -/
theorem sra32_nonneg (a : Int) (s : Nat) (h0 : 0 ≤ a) (h1 : a < 2147483648) :
    sra32 a s = a / 2 ^ s := by
  unfold sra32
  have ha : a % 4294967296 = a := by omega
  rw [ha, if_pos h1]

/-- Claim C4: for every 32-bit accumulator value and every shift amount
`s ≥ 0`, the right shift performed on the accumulator is arithmetic
(sign-preserving) and equals floor division by `2^s`; in particular shifting
`-7` right by `1` yields `-4` (not `-3`) and shifting `7` right by `1`
yields `3`. -/
theorem sra32_eq_fdiv (a : Int) (s : Nat)
    (hlo : -2147483648 ≤ a) (hhi : a ≤ 2147483647) :
    sra32 a s = Int.fdiv a (2 ^ s) ∧
    (a < 0 → sra32 a s < 0) ∧ (0 ≤ a → 0 ≤ sra32 a s) ∧
    sra32 (-7) 1 = -4 ∧ sra32 7 1 = 3 := by
  have hpow : (0 : Int) < 2 ^ s := by positivity
  have hmain : sra32 a s = a / 2 ^ s := by
    rcases le_or_lt 0 a with hpos | hneg
    · exact sra32_nonneg a s hpos (by omega)
    · unfold sra32
      have hmod : a % 4294967296 = a + 4294967296 := by omega
      have hge : ¬ a + 4294967296 < 2147483648 := by omega
      rw [hmod, if_neg hge]
      rcases le_or_lt s 32 with hs | hs
      · have hsplit : (4294967296 : Int) = 2 ^ (32 - min s 32) * 2 ^ s := by
          have h32 : 32 - min s 32 + s = 32 := by omega
          rw [← pow_add, h32]
          norm_num
        rw [hsplit, Int.add_mul_ediv_right _ _ (by positivity : (2:Int) ^ s ≠ 0)]
        ring
      · have hmin : 32 - min s 32 = 0 := by omega
        have hbig : (4294967296 : Int) ≤ 2 ^ s := by
          calc (4294967296 : Int) = 2 ^ 32 := by norm_num
          _ ≤ 2 ^ s := by
            apply pow_le_pow_right₀ (by norm_num)
            omega
        have hdiv : (a + 4294967296) / 2 ^ s = 0 := by
          apply Int.ediv_eq_zero_of_lt <;> omega
        have hdiv2 : a / 2 ^ s = -1 := by
          have h1 : (a + 2 ^ s) / 2 ^ s = a / 2 ^ s + 1 := by
            have := Int.add_mul_ediv_right a 1 (by positivity : (2:Int) ^ s ≠ 0)
            simpa using this
          have h2 : (a + 2 ^ s) / 2 ^ s = 0 := by
            apply Int.ediv_eq_zero_of_lt <;> omega
          omega
        rw [hmin, hdiv, hdiv2]
        norm_num
  have hfd : Int.fdiv a (2 ^ s) = a / 2 ^ s := Int.fdiv_eq_ediv a (le_of_lt hpow)
  refine ⟨hmain.trans hfd.symm, ?_, ?_, by decide, by decide⟩
  · intro hneg
    rw [hmain]
    exact Int.ediv_neg' hneg hpow
  · intro hpos
    rw [hmain]
    exact Int.ediv_nonneg hpos (le_of_lt hpow)

/-- The shift theorem instantiated at the accumulator values named by the
spec's testable property 3. -/
theorem sra32_eq_fdiv_witness :
    ((-2147483648 : Int) ≤ -7 ∧ (-7 : Int) ≤ 2147483647) ∧
    (sra32 (-7) 1 = Int.fdiv (-7) (2 ^ 1) ∧ sra32 (-7) 1 = -4 ∧ sra32 7 1 = 3) :=
  ⟨⟨by decide, by decide⟩,
    (sra32_eq_fdiv (-7) 1 (by decide) (by decide)).1,
    (sra32_eq_fdiv (-7) 1 (by decide) (by decide)).2.2.2.1,
    (sra32_eq_fdiv (-7) 1 (by decide) (by decide)).2.2.2.2⟩

/-! ## Dense layer accumulators

`fpga_inference_with_overflow` (`regresja/testing/simulate_fpga_inference.py`):
per class the accumulator is an `np.int32` that wraps on every partial sum,
the product being formed on `np.int16` operands, and the bias is added with
the same wrapping. -/

/-- The Wrap32 multiply-accumulate loop of `fpga_inference_with_overflow`:
`product = np.int16(w) * np.int16(p)` then
`accumulator = np.int32(accumulator + np.int32(product))`. -/
def accWrapReg (xs ws : List Int) : Int :=
  (List.zipWith (fun x w => wrap16 (x * w)) xs ws).foldl (fun a p => wrap32 (a + p)) 0

/-- One class score of `fpga_inference_with_overflow`:
`final_score = np.int32(accumulator + biases[class_idx])`. -/
def scoreWrap (xs ws : List Int) (b : Int) : Int :=
  wrap32 (accWrapReg xs ws + b)

/-- The 32-bit multiply-accumulate loop of layer 1 of
`fpga_inference_simulation` (`2_ukryte`): `product = np.int32(x) * np.int32(w)`
and `acc = np.int32(acc + product)`. -/
def accWrap32 (xs ws : List Int) : Int :=
  (List.zipWith (fun x w => wrap32 (x * w)) xs ws).foldl (fun a p => wrap32 (a + p)) 0

/-- The 64-bit multiply-accumulate of layers 2 and 3 of
`fpga_inference_simulation` followed by the single clip to the int32 range:
`acc = np.int64(0)`, `acc += np.int64(x) * np.int64(w)` over the row,
`acc += np.int64(b)`, then the `if acc > 2147483647 ... elif ...` clip. -/
def accSat64 (xs ws : List Int) (b : Int) : Int :=
  clamp32 (wrap64
    ((List.zipWith (fun x w => wrap64 (x * w)) xs ws).foldl (fun a p => wrap64 (a + p)) 0 + b))

/-- `wrap32` only depends on the argument modulo `2^32`, so a wrapped partial
sum can be unwrapped: this is the homomorphism property behind claim C3. -/
theorem wrap32_add_left (a b : Int) : wrap32 (wrap32 a + b) = wrap32 (a + b) := by
  unfold wrap32 toS32
  split_ifs <;> omega

/-- Folding wrapped additions over a list equals wrapping the plain sum. -/
theorem foldl_wrap32_eq (l : List Int) (a : Int) :
    l.foldl (fun x p => wrap32 (x + p)) (wrap32 a) = wrap32 (a + l.sum) := by
  induction l generalizing a with
  | nil => simp
  | cons h t ih =>
    simp only [List.foldl_cons, List.sum_cons]
    rw [wrap32_add_left, ih, add_assoc]

/-- An int16 product of two int8 factors never wraps. -/
theorem wrap16_int8_mul (x w : Int) (hx : -128 ≤ x ∧ x ≤ 127)
    (hw : -128 ≤ w ∧ w ≤ 127) : wrap16 (x * w) = x * w := by
  have hax : x.natAbs ≤ 128 := by omega
  have haw : w.natAbs ≤ 128 := by omega
  have habs : (x * w).natAbs ≤ 16384 := by
    rw [Int.natAbs_mul]
    calc x.natAbs * w.natAbs ≤ 128 * 128 := Nat.mul_le_mul hax haw
    _ = 16384 := by norm_num
  unfold wrap16
  split_ifs <;> omega

/-- With int8 operands the wrapped product list is the exact product list. -/
theorem zipWith_wrap16_eq (xs ws : List Int)
    (hx : ∀ x ∈ xs, -128 ≤ x ∧ x ≤ 127) (hw : ∀ w ∈ ws, -128 ≤ w ∧ w ≤ 127) :
    List.zipWith (fun x w => wrap16 (x * w)) xs ws = List.zipWith (fun x w => x * w) xs ws := by
  induction xs generalizing ws with
  | nil => simp
  | cons x xs ih =>
    cases ws with
    | nil => simp
    | cons w ws =>
      simp only [List.zipWith_cons_cons]
      refine congrArg₂ _ ?_ ?_
      · exact wrap16_int8_mul x w (hx x (by simp)) (hw w (by simp))
      · exact ih ws (fun y hy => hx y (List.mem_cons_of_mem _ hy))
          (fun y hy => hw y (List.mem_cons_of_mem _ hy))

/-- Claim C3: under the Wrap32 policy, for every int8 input vector, int8
weight row and int32 bias, the wrapping of every partial sum composes to a
single reduction modulo `2^32`: the final score is the exact dot product plus
bias reduced in two's complement into `[-2^31, 2^31-1]`; in particular an
accumulator holding `2147483647` to which `1` is added wraps to
`-2147483648`. -/
theorem scoreWrap_eq_wrap_dot (xs ws : List Int) (b : Int)
    (hx : ∀ x ∈ xs, -128 ≤ x ∧ x ≤ 127) (hw : ∀ w ∈ ws, -128 ≤ w ∧ w ≤ 127)
    (hb : -2147483648 ≤ b ∧ b ≤ 2147483647) :
    scoreWrap xs ws b = wrap32 (dotProd xs ws + b) ∧
    -2147483648 ≤ scoreWrap xs ws b ∧ scoreWrap xs ws b ≤ 2147483647 ∧
    wrap32 (2147483647 + 1) = -2147483648 := by
  have hacc : accWrapReg xs ws = wrap32 (dotProd xs ws) := by
    unfold accWrapReg dotProd
    rw [zipWith_wrap16_eq xs ws hx hw]
    have h0 : (0 : Int) = wrap32 0 := by decide
    rw [h0, foldl_wrap32_eq, zero_add]
  have hmain : scoreWrap xs ws b = wrap32 (dotProd xs ws + b) := by
    unfold scoreWrap
    rw [hacc, wrap32_add_left]
  refine ⟨hmain, ?_, ?_, by decide⟩
  · rw [hmain]; unfold wrap32 toS32; split_ifs <;> omega
  · rw [hmain]; unfold wrap32 toS32; split_ifs <;> omega

/-- The Wrap32 score theorem evaluated on a concrete in-range sample: a dot
product of `16384` plus bias `2147483647` wraps to a negative score. -/
theorem scoreWrap_eq_wrap_dot_witness :
    scoreWrap [-128] [-128] 2147483647 = wrap32 (dotProd [-128] [-128] + 2147483647) ∧
    scoreWrap [-128] [-128] 2147483647 = -2147467265 :=
  ⟨(scoreWrap_eq_wrap_dot [-128] [-128] 2147483647
      (by decide) (by decide) (by decide)).1,
    by decide⟩

/-! ## Claim C1: the SaturateVia64 accumulator

In both `2_ukryte` simulation scripts the 64-bit accumulator receives the
whole dot product, then the bias (`acc += np.int64(L2_B[n])`), and only then
is clipped to the int32 range — there is no clip between the dot product and
the bias addition. -/

/-- An int64 product of an int32 activation and an int8 weight never wraps. -/
theorem wrap64_mul_exact (x w : Int)
    (hx : -2147483648 ≤ x ∧ x ≤ 2147483647) (hw : -128 ≤ w ∧ w ≤ 127) :
    wrap64 (x * w) = x * w := by
  have hax : x.natAbs ≤ 2147483648 := by omega
  have haw : w.natAbs ≤ 128 := by omega
  have habs : (x * w).natAbs ≤ 274877906944 := by
    rw [Int.natAbs_mul]
    calc x.natAbs * w.natAbs ≤ 2147483648 * 128 := Nat.mul_le_mul hax haw
    _ = 274877906944 := by norm_num
  unfold wrap64
  split_ifs <;> omega

/-- With int32 activations and int8 weights the wrapped product list is the
exact product list. -/
theorem zipWith_wrap64_eq (xs ws : List Int)
    (hx : ∀ x ∈ xs, -2147483648 ≤ x ∧ x ≤ 2147483647)
    (hw : ∀ w ∈ ws, -128 ≤ w ∧ w ≤ 127) :
    List.zipWith (fun x w => wrap64 (x * w)) xs ws = List.zipWith (fun x w => x * w) xs ws := by
  induction xs generalizing ws with
  | nil => simp
  | cons x xs ih =>
    cases ws with
    | nil => simp
    | cons w ws =>
      simp only [List.zipWith_cons_cons]
      refine congrArg₂ _ ?_ ?_
      · exact wrap64_mul_exact x w (hx x (by simp)) (hw w (by simp))
      · exact ih ws (fun y hy => hx y (List.mem_cons_of_mem _ hy))
          (fun y hy => hw y (List.mem_cons_of_mem _ hy))

/-- Every product of an int32 activation with an int8 weight is bounded by
`2^38` in absolute value. -/
theorem zipWith_mul_bounds (xs ws : List Int)
    (hx : ∀ x ∈ xs, -2147483648 ≤ x ∧ x ≤ 2147483647)
    (hw : ∀ w ∈ ws, -128 ≤ w ∧ w ≤ 127) :
    ∀ p ∈ List.zipWith (fun x w => x * w) xs ws,
      -274877906944 ≤ p ∧ p ≤ 274877906944 := by
  induction xs generalizing ws with
  | nil => simp
  | cons x xs ih =>
    cases ws with
    | nil => simp
    | cons w ws =>
      intro p hp
      simp only [List.zipWith_cons_cons, List.mem_cons] at hp
      rcases hp with hp | hp
      · subst hp
        have hbx := hx x (by simp)
        have hbw := hw w (by simp)
        have hax : x.natAbs ≤ 2147483648 := by omega
        have haw : w.natAbs ≤ 128 := by omega
        have habs : (x * w).natAbs ≤ 274877906944 := by
          rw [Int.natAbs_mul]
          calc x.natAbs * w.natAbs ≤ 2147483648 * 128 := Nat.mul_le_mul hax haw
          _ = 274877906944 := by norm_num
        omega
      · exact ih ws (fun y hy => hx y (List.mem_cons_of_mem _ hy))
          (fun y hy => hw y (List.mem_cons_of_mem _ hy)) p hp

/-- The sum of a list of `2^38`-bounded integers is bounded by `2^38` times
its length. -/
theorem sum_bounds_of_bounds (ps : List Int)
    (hp : ∀ p ∈ ps, -274877906944 ≤ p ∧ p ≤ 274877906944) :
    -(274877906944 * ps.length) ≤ ps.sum ∧ ps.sum ≤ 274877906944 * ps.length := by
  induction ps with
  | nil => simp
  | cons p ps ih =>
    have h1 := hp p (by simp)
    have h2 := ih (fun y hy => hp y (List.mem_cons_of_mem _ hy))
    simp only [List.sum_cons, List.length_cons]
    push_cast
    push_cast at h2
    constructor <;> nlinarith [h2.1, h2.2]

/-- As long as the running total stays inside the int64 range, the wrapped
64-bit additions of the accumulation loop are exact. -/
theorem foldl_wrap64_eq (ps : List Int) (a : Int)
    (hp : ∀ p ∈ ps, -274877906944 ≤ p ∧ p ≤ 274877906944)
    (ha : -9223372036854775807 + 274877906944 * ps.length ≤ a ∧
      a ≤ 9223372036854775807 - 274877906944 * ps.length) :
    ps.foldl (fun x p => wrap64 (x + p)) a = a + ps.sum := by
  induction ps generalizing a with
  | nil => simp
  | cons p ps ih =>
    have hbp := hp p (by simp)
    simp only [List.length_cons] at ha
    have hw : wrap64 (a + p) = a + p := by
      unfold wrap64
      push_cast at ha
      split_ifs <;> omega
    have hb2 : -9223372036854775807 + 274877906944 * ps.length ≤ a + p ∧
        a + p ≤ 9223372036854775807 - 274877906944 * ps.length := by
      push_cast at ha ⊢
      omega
    simp only [List.foldl_cons, List.sum_cons, hw]
    rw [ih (a + p) (fun y hy => hp y (List.mem_cons_of_mem _ hy)) hb2]
    ring

/-- Core fact about the 64-bit saturating accumulator: for in-range operands
it computes the exact dot product plus bias clamped once to the int32
range. -/
theorem accSat64_clamp (xs ws : List Int) (b : Int)
    (hx : ∀ x ∈ xs, -2147483648 ≤ x ∧ x ≤ 2147483647)
    (hw : ∀ w ∈ ws, -128 ≤ w ∧ w ≤ 127)
    (hb : -2147483648 ≤ b ∧ b ≤ 2147483647)
    (hlen : xs.length ≤ 784) :
    accSat64 xs ws b = clamp32 (dotProd xs ws + b) := by
  unfold accSat64 dotProd
  rw [zipWith_wrap64_eq xs ws hx hw]
  have hbounds := zipWith_mul_bounds xs ws hx hw
  have hzlen : (List.zipWith (fun x w => x * w) xs ws).length ≤ 784 := by
    rw [List.length_zipWith]
    omega
  have hfold := foldl_wrap64_eq (List.zipWith (fun x w => x * w) xs ws) 0 hbounds
    (by constructor <;> [nlinarith [hzlen]; nlinarith [hzlen]])
  rw [hfold, zero_add]
  have hsum := sum_bounds_of_bounds _ hbounds
  have hwid : wrap64 ((List.zipWith (fun x w => x * w) xs ws).sum + b) =
      (List.zipWith (fun x w => x * w) xs ws).sum + b := by
    unfold wrap64
    have h1 := hsum.1
    have h2 := hsum.2
    have h3 : (274877906944 : Int) * (List.zipWith (fun x w => x * w) xs ws).length ≤
        274877906944 * 784 := by
      have := hzlen
      nlinarith [hzlen]
    split_ifs <;> omega
  rw [hwid]

/-- Claim C1 as stated is false on the code: the dot product is not clamped
before the bias is added.  With the single in-range activation `2^25`, the
weight `127` and the bias `-2^31` the code's pre-shift accumulator is
`2113929216`, while `clamp32(clamp32(dot_product) + bias)` would be `-1`. -/
theorem accSat64_counterexample :
    accSat64 [33554432] [127] (-2147483648) = 2113929216 ∧
    clamp32 (clamp32 (dotProd [33554432] [127]) + (-2147483648)) = -1 ∧
    (2113929216 : Int) ≠ -1 := by
  refine ⟨by decide, by decide, by decide⟩

/-- Claim C1 as the code actually behaves (amended): under SaturateVia64, for
in-range operands (int32 activations, int8 weights, int32 bias, at most 784
terms) the full dot product and the bias are accumulated exactly in 64-bit
precision and the result is clamped to `[-2^31, 2^31-1]` once, after the bias
addition: the pre-shift accumulator equals `clamp32(dot_product + bias)`. -/
theorem accSat64_eq_clamp_dot_add_bias (xs ws : List Int) (b : Int)
    (hx : ∀ x ∈ xs, -2147483648 ≤ x ∧ x ≤ 2147483647)
    (hw : ∀ w ∈ ws, -128 ≤ w ∧ w ≤ 127)
    (hb : -2147483648 ≤ b ∧ b ≤ 2147483647)
    (hlen : xs.length ≤ 784) :
    accSat64 xs ws b = clamp32 (dotProd xs ws + b) :=
  accSat64_clamp xs ws b hx hw hb hlen

/-- The amended SaturateVia64 theorem evaluated at the counterexample input:
the single clamp after the bias addition is what the code computes. -/
theorem accSat64_eq_clamp_dot_add_bias_witness :
    accSat64 [33554432] [127] (-2147483648) =
      clamp32 (dotProd [33554432] [127] + (-2147483648)) :=
  accSat64_eq_clamp_dot_add_bias [33554432] [127] (-2147483648)
    (by decide) (by decide) (by decide) (by decide)

/-! ## Claim C5: argmax prediction

`np.argmax` scans the scores once and keeps the first index whose value is
strictly greater than the best seen so far, so ties resolve to the lowest
index. -/

/-- Scanning loop of `np.argmax`: `bi`/`bv` are the best index and value seen
so far and `i` the index of the head of the remaining list. -/
def argmaxAux : List Int → Nat → Nat → Int → Nat
  | [], _, bi, _ => bi
  | x :: xs, i, bi, bv =>
    if bv < x then argmaxAux xs (i + 1) i x else argmaxAux xs (i + 1) bi bv

/-- `np.argmax` over a score list (`0` on the empty list, which never occurs:
the engines always produce 10 scores). -/
def argmax : List Int → Nat
  | [] => 0
  | x :: xs => argmaxAux xs 1 0 x

/-- The dense regression engine `fpga_inference_with_overflow`: one wrapped
score per (weight row, bias) pair, and the argmax prediction.  (The
`overflow_detected` debug flag of the source is not modelled; it does not
feed the scores or the prediction.) -/
def fpga_inference_with_overflow (img : List Int) (W : List (List Int)) (B : List Int) :
    Nat × List Int :=
  let scores := (W.zip B).map fun p => scoreWrap img p.1 p.2
  (argmax scores, scores)

/-- An in-range `getD` lookup is a member of the list. -/
theorem getD_mem_of_lt (l : List Int) (k : Nat) (h : k < l.length) : l.getD k 0 ∈ l := by
  rw [List.getD_eq_getElem l 0 h]
  exact List.getElem_mem h

/-- Invariant of the `np.argmax` scan: either no element beats the incumbent
and the incumbent index is returned, or the returned index points at the
first strict improvement that is maximal among the remaining elements. -/
theorem argmaxAux_spec (xs : List Int) (i bi : Nat) (bv : Int) :
    (argmaxAux xs i bi bv = bi ∧ ∀ x ∈ xs, x ≤ bv) ∨
    (∃ j, j < xs.length ∧ argmaxAux xs i bi bv = i + j ∧ bv < xs.getD j 0 ∧
      (∀ k, k < xs.length → xs.getD k 0 ≤ xs.getD j 0) ∧
      (∀ k, k < j → xs.getD k 0 < xs.getD j 0)) := by
  induction xs generalizing i bi bv with
  | nil => left; exact ⟨rfl, by simp⟩
  | cons x xs ih =>
    by_cases hlt : bv < x
    · right
      have hrec := ih (i + 1) i x
      rcases hrec with ⟨heq, hall⟩ | ⟨j, hj, heq, hbv, hmax, hfirst⟩
      · refine ⟨0, by simp, ?_, ?_, ?_, ?_⟩
        · simpa [argmaxAux, hlt] using heq
        · simpa using hlt
        · intro k hk
          cases k with
          | zero => simp
          | succ k =>
            simp only [List.getD_cons_succ, List.getD_cons_zero]
            exact hall _ (getD_mem_of_lt _ _ (by simpa using hk))
        · intro k hk
          omega
      · refine ⟨j + 1, by simpa using hj, ?_, ?_, ?_, ?_⟩
        · simp only [argmaxAux, if_pos hlt]
          omega
        · simp only [List.getD_cons_succ]
          exact lt_trans hlt hbv
        · intro k hk
          cases k with
          | zero =>
            simp only [List.getD_cons_zero, List.getD_cons_succ]
            exact le_of_lt hbv
          | succ k =>
            simp only [List.getD_cons_succ]
            exact hmax k (by simpa using hk)
        · intro k hk
          cases k with
          | zero =>
            simp only [List.getD_cons_zero, List.getD_cons_succ]
            exact hbv
          | succ k =>
            simp only [List.getD_cons_succ]
            exact hfirst k (by omega)
    · have hrec := ih (i + 1) bi bv
      rcases hrec with ⟨heq, hall⟩ | ⟨j, hj, heq, hbv, hmax, hfirst⟩
      · left
        refine ⟨by simpa [argmaxAux, hlt] using heq, ?_⟩
        intro y hy
        rcases List.mem_cons.mp hy with hy | hy
        · omega
        · exact hall y hy
      · right
        refine ⟨j + 1, by simpa using hj, ?_, ?_, ?_, ?_⟩
        · simp only [argmaxAux, if_neg hlt]
          omega
        · simp only [List.getD_cons_succ]
          exact hbv
        · intro k hk
          cases k with
          | zero =>
            simp only [List.getD_cons_zero, List.getD_cons_succ]
            omega
          | succ k =>
            simp only [List.getD_cons_succ]
            exact hmax k (by simpa using hk)
        · intro k hk
          cases k with
          | zero =>
            simp only [List.getD_cons_zero, List.getD_cons_succ]
            omega
          | succ k =>
            simp only [List.getD_cons_succ]
            exact hfirst k (by omega)

/-- With an all-zero weight row every wrapped int16 product vanishes. -/
theorem accWrapReg_zero_row (img : List Int) (n : Nat) :
    accWrapReg img (List.replicate n 0) = 0 := by
  unfold accWrapReg
  have hz : List.zipWith (fun x w => wrap16 (x * w)) img (List.replicate n 0) =
      List.replicate (min img.length n) 0 := by
    induction img generalizing n with
    | nil => simp
    | cons x xs ih =>
      cases n with
      | zero => simp
      | succ n =>
        simp only [List.replicate_succ, List.zipWith_cons_cons, ih,
          List.length_cons]
        have h0 : wrap16 (x * 0) = 0 := by
          rw [mul_zero]; decide
        rw [h0]
        have hmin : min (xs.length + 1) (n + 1) = min xs.length n + 1 := by omega
        rw [hmin, List.replicate_succ]
  rw [hz]
  generalize min img.length n = k
  induction k with
  | zero => simp
  | succ k ih =>
    rw [List.replicate_succ, List.foldl_cons]
    have h0 : wrap32 (0 + 0) = 0 := by decide
    rw [h0]
    exact ih

/-- Claim C5: the prediction is the lowest index attaining the maximum score,
and the single dense layer with all-zero weights and bias vector
`[5,3,3,1,1,1,1,1,1,1]`, fed any input, produces exactly that score vector and
prediction `0`. -/
theorem argmax_lowest_index :
    (∀ l : List Int, l ≠ [] →
      argmax l < l.length ∧
      (∀ k, k < l.length → l.getD k 0 ≤ l.getD (argmax l) 0) ∧
      (∀ k, k < l.length → l.getD k 0 = l.getD (argmax l) 0 → argmax l ≤ k)) ∧
    (∀ img : List Int,
      fpga_inference_with_overflow img (List.replicate 10 (List.replicate 784 0))
        [5, 3, 3, 1, 1, 1, 1, 1, 1, 1] = (0, [5, 3, 3, 1, 1, 1, 1, 1, 1, 1])) := by
  constructor
  · intro l hl
    cases l with
    | nil => exact absurd rfl hl
    | cons x xs =>
      have hspec := argmaxAux_spec xs 1 0 x
      show argmax (x :: xs) < xs.length + 1 ∧ _
      rcases hspec with ⟨heq, hall⟩ | ⟨j, hj, heq, hbv, hmax, hfirst⟩
      · have hres : argmax (x :: xs) = 0 := heq
        rw [hres]
        refine ⟨by omega, ?_, ?_⟩
        · intro k hk
          cases k with
          | zero => simp
          | succ k =>
            simp only [List.getD_cons_succ, List.getD_cons_zero]
            exact hall _ (getD_mem_of_lt _ _ (by simpa using hk))
        · intro k _ _
          omega
      · have hres : argmax (x :: xs) = j + 1 := by
          show argmaxAux xs 1 0 x = j + 1
          omega
        rw [hres]
        refine ⟨by omega, ?_, ?_⟩
        · intro k hk
          cases k with
          | zero =>
            simp only [List.getD_cons_zero, List.getD_cons_succ]
            exact le_of_lt hbv
          | succ k =>
            simp only [List.getD_cons_succ]
            exact hmax k (by simpa using hk)
        · intro k hk hkeq
          cases k with
          | zero =>
            simp only [List.getD_cons_zero, List.getD_cons_succ] at hkeq
            omega
          | succ k =>
            simp only [List.getD_cons_succ] at hkeq
            by_contra hcon
            have hklt : k < j := by omega
            have := hfirst k hklt
            omega
  · intro img
    have hsw : ∀ b : Int, scoreWrap img (List.replicate 784 0) b = wrap32 b := by
      intro b
      unfold scoreWrap
      rw [accWrapReg_zero_row, zero_add]
    have hrep : (List.replicate 10 (List.replicate 784 0) : List (List Int)) =
        List.replicate 784 0 :: List.replicate 784 0 :: List.replicate 784 0 ::
        List.replicate 784 0 :: List.replicate 784 0 :: List.replicate 784 0 ::
        List.replicate 784 0 :: List.replicate 784 0 :: List.replicate 784 0 ::
        List.replicate 784 0 :: [] := rfl
    simp only [fpga_inference_with_overflow, hrep, List.zip_cons_cons,
      List.zip_nil_left, List.map_cons, List.map_nil, hsw]
    decide

/-- The argmax theorem applied to the spec's tie-breaking score vector and the
zero-weight engine applied to a concrete image. -/
theorem argmax_lowest_index_witness :
    ([5, 3, 3, 1, 1, 1, 1, 1, 1, 1] : List Int) ≠ [] ∧
    argmax [5, 3, 3, 1, 1, 1, 1, 1, 1, 1] <
      ([5, 3, 3, 1, 1, 1, 1, 1, 1, 1] : List Int).length ∧
    fpga_inference_with_overflow (List.replicate 784 7)
      (List.replicate 10 (List.replicate 784 0)) [5, 3, 3, 1, 1, 1, 1, 1, 1, 1] =
      (0, [5, 3, 3, 1, 1, 1, 1, 1, 1, 1]) :=
  ⟨by decide, (argmax_lowest_index.1 [5, 3, 3, 1, 1, 1, 1, 1, 1, 1] (by decide)).1,
    argmax_lowest_index.2 (List.replicate 784 7)⟩

/-! ## The 2-hidden-layer engine (`2_ukryte/testing/generate_test_vectors.py`
and `2_ukryte/testing/compare_python_vs_fpga.py`, `fpga_inference_simulation`)

Layer 1 accumulates in an `np.int32` that wraps on every partial sum and on
the bias addition; layers 2 and 3 accumulate dot product and bias in
`np.int64` and clip once to the int32 range.  Layers 1 and 2 then apply the
arithmetic shift by 7 and ReLU; layer 3 emits the clipped accumulator as the
class score. -/

/-- A dense layer with the wrapping 32-bit accumulator, shift and ReLU
(layer 1 of `fpga_inference_simulation`). -/
def denseWrapRelu (x : List Int) (W : List (List Int)) (B : List Int) (s : Nat) : List Int :=
  (W.zip B).map fun p => relu (sra32 (wrap32 (accWrap32 x p.1 + p.2)) s)

/-- A dense layer with the 64-bit saturating accumulator, shift and ReLU
(layer 2 of `fpga_inference_simulation`). -/
def denseSatRelu (x : List Int) (W : List (List Int)) (B : List Int) (s : Nat) : List Int :=
  (W.zip B).map fun p => relu (sra32 (accSat64 x p.1 p.2) s)

/-- A final dense layer with the 64-bit saturating accumulator and no
shift/activation (layer 3 of `fpga_inference_simulation`). -/
def denseSatFinal (x : List Int) (W : List (List Int)) (B : List Int) : List Int :=
  (W.zip B).map fun p => accSat64 x p.1 p.2

/-- A final dense layer with the wrapping 32-bit accumulator (the layer-3
idiom of the `regresja` engine, used for the all-Wrap32 comparison). -/
def denseWrapFinal (x : List Int) (W : List (List Int)) (B : List Int) : List Int :=
  (W.zip B).map fun p => wrap32 (accWrap32 x p.1 + p.2)

/-- The scores of `fpga_inference_simulation` as written: a wrapping layer 1
followed by two saturating layers. -/
def fpga_inference_simulation (img : List Int) (W1 : List (List Int)) (B1 : List Int)
    (W2 : List (List Int)) (B2 : List Int) (W3 : List (List Int)) (B3 : List Int) : List Int :=
  denseSatFinal (denseSatRelu (denseWrapRelu img W1 B1 7) W2 B2 7) W3 B3

/-- The same model evaluated with the Wrap32 policy in all three layers. -/
def inferenceAllWrap (img : List Int) (W1 : List (List Int)) (B1 : List Int)
    (W2 : List (List Int)) (B2 : List Int) (W3 : List (List Int)) (B3 : List Int) : List Int :=
  denseWrapFinal (denseWrapRelu (denseWrapRelu img W1 B1 7) W2 B2 7) W3 B3

/-- The same model evaluated with the SaturateVia64 policy in all three
layers. -/
def inferenceAllSat (img : List Int) (W1 : List (List Int)) (B1 : List Int)
    (W2 : List (List Int)) (B2 : List Int) (W3 : List (List Int)) (B3 : List Int) : List Int :=
  denseSatFinal (denseSatRelu (denseSatRelu img W1 B1 7) W2 B2 7) W3 B3

/-! ## Claim C9: the three layers do not share one overflow policy -/

/-- Zipping two constant vectors applies the operation pointwise to the two
constants. -/
theorem zipWith_replicate_both (f : Int → Int → Int) (n : Nat) (x w : Int) :
    List.zipWith f (List.replicate n x) (List.replicate n w) = List.replicate n (f x w) := by
  induction n with
  | zero => simp
  | succ n ih => simp [List.replicate_succ, ih]

/-- Sum of a constant integer vector. -/
theorem sum_replicate_int (n : Nat) (x : Int) : (List.replicate n x).sum = n * x := by
  induction n with
  | zero => simp
  | succ n ih =>
    rw [List.replicate_succ, List.sum_cons, ih]
    push_cast
    ring

/-- The wrapping accumulator over constant vectors in closed form. -/
theorem accWrap32_replicate (n : Nat) (x w : Int) :
    accWrap32 (List.replicate n x) (List.replicate n w) = wrap32 ((n : Int) * wrap32 (x * w)) := by
  unfold accWrap32
  rw [zipWith_replicate_both]
  have h0 : (0 : Int) = wrap32 0 := by decide
  rw [h0, foldl_wrap32_eq, zero_add, sum_replicate_int]

/-- The dot product of constant vectors in closed form. -/
theorem dotProd_replicate (n : Nat) (x w : Int) :
    dotProd (List.replicate n x) (List.replicate n w) = (n : Int) * (x * w) := by
  unfold dotProd
  rw [zipWith_replicate_both, sum_replicate_int]

/-- Concrete image for claim C9: all 784 pixels at `100`. -/
def img0 : List Int := List.replicate 784 100

/-- A layer-1 weight row of 784 weights `127`. -/
def w127 : List Int := List.replicate 784 127

/-- An all-zero layer-1 weight row. -/
def z784 : List Int := List.replicate 784 0

/-- An all-zero 16-entry weight row. -/
def z16 : List Int := List.replicate 16 0

/-- Layer-2 weight row reading only activation 0. -/
def r2a : List Int := 127 :: List.replicate 15 0

/-- Layer-2 weight row reading only activation 1. -/
def r2b : List Int := 0 :: 127 :: List.replicate 14 0

/-- Layer-3 weight row adding activations 0 and 1. -/
def r3a : List Int := 1 :: 1 :: List.replicate 14 0

/-- Layer-1 weights of the claim C9 model (16 rows of 784 int8 weights). -/
def W1c : List (List Int) :=
  [w127, w127, z784, z784, z784, z784, z784, z784, z784, z784, z784, z784, z784, z784, z784, z784]

/-- Layer-1 biases: neuron 0 peaks exactly at the int32 maximum, neuron 1
overflows it. -/
def B1c : List Int := [2137526847, 2147483647, 0, 0, 0, 0, 0, 0, 0, 0, 0, 0, 0, 0, 0, 0]

/-- Layer-2 weights of the claim C9 model. -/
def W2c : List (List Int) :=
  [r2a, r2b, z16, z16, z16, z16, z16, z16, z16, z16, z16, z16, z16, z16, z16, z16]

/-- Layer-2 biases: neuron 0 is pushed past the int32 maximum. -/
def B2c : List Int := [2147483647, 0, 0, 0, 0, 0, 0, 0, 0, 0, 0, 0, 0, 0, 0, 0]

/-- Layer-3 weights of the claim C9 model. -/
def W3c : List (List Int) := [r3a, z16, z16, z16, z16, z16, z16, z16, z16, z16]

/-- Layer-3 biases (all zero). -/
def B3c : List Int := List.replicate 10 0

/-- Layer 1 of the engine on the claim C9 model: neuron 0 reaches
`2^31 - 1` without wrapping, neuron 1 wraps negative and is zeroed by the
ReLU. -/
theorem denseWrapRelu_model :
    denseWrapRelu img0 W1c B1c 7 = [16777215, 0, 0, 0, 0, 0, 0, 0, 0, 0, 0, 0, 0, 0, 0, 0] := by
  unfold denseWrapRelu W1c B1c img0 w127 z784
  simp only [List.zip_cons_cons, List.zip_nil_left, List.map_cons, List.map_nil,
    accWrap32_replicate]
  decide

/-- The saturating accumulator of the claim C9 model on the hot row: the
bias `2137526847` lands exactly on the int32 maximum. -/
theorem accSat64_model_row0 : accSat64 img0 w127 2137526847 = 2147483647 := by
  rw [show accSat64 img0 w127 2137526847 = clamp32 (dotProd img0 w127 + 2137526847) from
    accSat64_clamp img0 w127 2137526847
      (by intro x hx; have hx2 := List.eq_of_mem_replicate hx; omega)
      (by intro w hw; have hw2 := List.eq_of_mem_replicate hw; omega)
      (by decide) (by rw [img0, List.length_replicate])]
  unfold img0 w127
  rw [dotProd_replicate]
  decide

/-- The saturating accumulator on the overflowing row: the sum exceeds the
int32 maximum and is clamped to it. -/
theorem accSat64_model_row1 : accSat64 img0 w127 2147483647 = 2147483647 := by
  rw [show accSat64 img0 w127 2147483647 = clamp32 (dotProd img0 w127 + 2147483647) from
    accSat64_clamp img0 w127 2147483647
      (by intro x hx; have hx2 := List.eq_of_mem_replicate hx; omega)
      (by intro w hw; have hw2 := List.eq_of_mem_replicate hw; omega)
      (by decide) (by rw [img0, List.length_replicate])]
  unfold img0 w127
  rw [dotProd_replicate]
  decide

/-- The saturating accumulator on an all-zero row. -/
theorem accSat64_model_zrow : accSat64 img0 z784 0 = 0 := by
  rw [show accSat64 img0 z784 0 = clamp32 (dotProd img0 z784 + 0) from
    accSat64_clamp img0 z784 0
      (by intro x hx; have hx2 := List.eq_of_mem_replicate hx; omega)
      (by intro w hw; have hw2 := List.eq_of_mem_replicate hw; omega)
      (by decide) (by rw [img0, List.length_replicate])]
  unfold img0 z784
  rw [dotProd_replicate]
  decide

/-- Layer 1 evaluated with the saturating policy instead: neuron 1 is clamped
to the int32 maximum instead of wrapping, so it survives the ReLU. -/
theorem denseSatRelu_model :
    denseSatRelu img0 W1c B1c 7 =
      [16777215, 16777215, 0, 0, 0, 0, 0, 0, 0, 0, 0, 0, 0, 0, 0, 0] := by
  unfold denseSatRelu W1c B1c
  simp only [List.zip_cons_cons, List.zip_nil_left, List.map_cons, List.map_nil,
    accSat64_model_row0, accSat64_model_row1, accSat64_model_zrow]
  decide

set_option maxRecDepth 4000 in
/-- The engine as written on the claim C9 model. -/
theorem sim_at_model :
    fpga_inference_simulation img0 W1c B1c W2c B2c W3c B3c =
      [16777215, 0, 0, 0, 0, 0, 0, 0, 0, 0] := by
  unfold fpga_inference_simulation
  rw [denseWrapRelu_model]
  decide

set_option maxRecDepth 4000 in
/-- The all-Wrap32 evaluation of the same model: the saturation in layer 2 is
replaced by a wraparound, the hot activation goes negative and is zeroed. -/
theorem allWrap_at_model :
    inferenceAllWrap img0 W1c B1c W2c B2c W3c B3c = [0, 0, 0, 0, 0, 0, 0, 0, 0, 0] := by
  unfold inferenceAllWrap
  rw [denseWrapRelu_model]
  decide

set_option maxRecDepth 4000 in
/-- The all-SaturateVia64 evaluation of the same model: layer 1 keeps both hot
neurons, so the final score doubles up. -/
theorem allSat_at_model :
    inferenceAllSat img0 W1c B1c W2c B2c W3c B3c =
      [33423358, 0, 0, 0, 0, 0, 0, 0, 0, 0] := by
  unfold inferenceAllSat
  rw [denseSatRelu_model]
  decide

/-- Claim C9: the three layers of the 784→16→16→10 engine do not share one
overflow policy — layer 1 wraps at 32 bits while layers 2 and 3 saturate via
64-bit accumulation — and there is a well-formed model and int8 input on which
the engine's scores differ both from an all-Wrap32 and from an
all-SaturateVia64 evaluation of the same model. -/
theorem mixed_policy_engine_differs :
    ∃ (img : List Int) (W1 : List (List Int)) (B1 : List Int) (W2 : List (List Int))
      (B2 : List Int) (W3 : List (List Int)) (B3 : List Int),
      img.length = 784 ∧ (∀ x ∈ img, -128 ≤ x ∧ x ≤ 127) ∧
      W1.length = 16 ∧ (∀ r ∈ W1, r.length = 784 ∧ ∀ w ∈ r, -128 ≤ w ∧ w ≤ 127) ∧
      B1.length = 16 ∧ (∀ b ∈ B1, -2147483648 ≤ b ∧ b ≤ 2147483647) ∧
      W2.length = 16 ∧ (∀ r ∈ W2, r.length = 16 ∧ ∀ w ∈ r, -128 ≤ w ∧ w ≤ 127) ∧
      B2.length = 16 ∧ (∀ b ∈ B2, -2147483648 ≤ b ∧ b ≤ 2147483647) ∧
      W3.length = 10 ∧ (∀ r ∈ W3, r.length = 16 ∧ ∀ w ∈ r, -128 ≤ w ∧ w ≤ 127) ∧
      B3.length = 10 ∧ (∀ b ∈ B3, -2147483648 ≤ b ∧ b ≤ 2147483647) ∧
      fpga_inference_simulation img W1 B1 W2 B2 W3 B3 ≠
        inferenceAllWrap img W1 B1 W2 B2 W3 B3 ∧
      fpga_inference_simulation img W1 B1 W2 B2 W3 B3 ≠
        inferenceAllSat img W1 B1 W2 B2 W3 B3 := by
  have hrow784 : ∀ r ∈ W1c, r.length = 784 ∧ ∀ w ∈ r, -128 ≤ w ∧ w ≤ 127 := by
    intro r hr
    simp only [W1c, List.mem_cons, List.not_mem_nil, or_false, or_self, or_self_left] at hr
    rcases hr with rfl | rfl
    · exact ⟨by rw [w127, List.length_replicate],
        by intro w hw; have h2 := List.eq_of_mem_replicate hw; omega⟩
    · exact ⟨by rw [z784, List.length_replicate],
        by intro w hw; have h2 := List.eq_of_mem_replicate hw; omega⟩
  have hz16 : z16.length = 16 ∧ ∀ w ∈ z16, -128 ≤ w ∧ w ≤ 127 := by
    exact ⟨by rw [z16, List.length_replicate],
      by intro w hw; have h2 := List.eq_of_mem_replicate hw; omega⟩
  have hr2a : r2a.length = 16 ∧ ∀ w ∈ r2a, -128 ≤ w ∧ w ≤ 127 := by
    refine ⟨by rfl, ?_⟩
    intro w hw
    rcases List.mem_cons.mp hw with rfl | hw2
    · omega
    · have h2 := List.eq_of_mem_replicate hw2; omega
  have hr2b : r2b.length = 16 ∧ ∀ w ∈ r2b, -128 ≤ w ∧ w ≤ 127 := by
    refine ⟨by rfl, ?_⟩
    intro w hw
    rcases List.mem_cons.mp hw with rfl | hw2
    · omega
    · rcases List.mem_cons.mp hw2 with rfl | hw3
      · omega
      · have h2 := List.eq_of_mem_replicate hw3; omega
  have hr3a : r3a.length = 16 ∧ ∀ w ∈ r3a, -128 ≤ w ∧ w ≤ 127 := by
    refine ⟨by rfl, ?_⟩
    intro w hw
    rcases List.mem_cons.mp hw with rfl | hw2
    · omega
    · rcases List.mem_cons.mp hw2 with rfl | hw3
      · omega
      · have h2 := List.eq_of_mem_replicate hw3; omega
  refine ⟨img0, W1c, B1c, W2c, B2c, W3c, B3c,
    by rw [img0, List.length_replicate],
    by intro x hx; have h2 := List.eq_of_mem_replicate hx; omega,
    by rfl, hrow784,
    by rfl, by decide,
    by rfl, ?_,
    by rfl, by decide,
    by rfl, ?_,
    by rfl, by intro b hb; have h2 := List.eq_of_mem_replicate hb; omega,
    ?_, ?_⟩
  · intro r hr
    simp only [W2c, List.mem_cons, List.not_mem_nil, or_false, or_self, or_self_left] at hr
    rcases hr with rfl | rfl | rfl
    · exact hr2a
    · exact hr2b
    · exact hz16
  · intro r hr
    simp only [W3c, List.mem_cons, List.not_mem_nil, or_false, or_self, or_self_left] at hr
    rcases hr with rfl | rfl
    · exact hr3a
    · exact hz16
  · rw [sim_at_model, allWrap_at_model]
    decide
  · rw [sim_at_model, allSat_at_model]
    decide

/-! ## Claim C10: the 1-byte digit-read response

`test_fpga_integration.run_integration_test` appends `-1` when the read times
out (`len(resp) != 1`) and otherwise reports
`int.from_bytes(resp, byteorder=..) & 0x0F` with no range check;
`send_image.main` computes `response[0] & 0x0F` the same way. -/

/-- The prediction the harness reports for a digit-read response: `-1` on a
short read, otherwise the low nibble of the response byte. -/
def digit_read_prediction (resp : List Nat) : Int :=
  if resp.length ≠ 1 then -1 else ((resp.headD 0 &&& 15 : Nat) : Int)

/-- Claim C10: for every 1-byte response the reported prediction is the low
nibble `b &&& 0x0F = b % 16` with no validation against the class range: a
byte whose low nibble is 10–15 (for example `0xFA`) is reported as that
out-of-range prediction, never as an error. -/
theorem digit_read_low_nibble (b : Nat) (hb : b < 256) :
    digit_read_prediction [b] = ((b % 16 : Nat) : Int) ∧
    digit_read_prediction [b] ≠ -1 ∧
    digit_read_prediction [250] = 10 ∧ (9 : Int) < 10 := by
  have hand : b &&& 15 = b % 16 := Nat.and_pow_two_sub_one_eq_mod b 4
  refine ⟨?_, ?_, by decide, by decide⟩
  · unfold digit_read_prediction
    simp [hand]
  · unfold digit_read_prediction
    simp [hand]
    omega

/-- The nibble extraction applied at the response byte `0xFA`, whose low
nibble `10` is outside the class range. -/
theorem digit_read_low_nibble_witness :
    (250 : Nat) < 256 ∧ digit_read_prediction [250] = ((250 % 16 : Nat) : Int) :=
  ⟨by decide, (digit_read_low_nibble 250 (by decide)).1⟩

/-! ## Claim C7: hex fixture digit counts (`regresja/python/convert_to_binary.py`)

Lines of a `.mem` file are embedded as lists of hex digit values (`0..15`);
a blank line is the empty list.  `detect_bytes_per_value` walks the lines,
skips blanks and decides the width from the FIRST non-empty line: 2 digits →
1 byte, 8 digits → 4 bytes, anything else → a printed warning naming the file
and `None`, upon which `main` skips the file (`continue`) — no exception is
raised and no line number is reported.  `convert_mem_to_bin` never checks any
digit count. -/

/-- `int(line, 16)`: the value of a big-endian hex digit string. -/
def hexValue (ds : List Nat) : Nat :=
  ds.foldl (fun a d => a * 16 + d) 0

/-- `detect_bytes_per_value`: the first non-empty line decides the width. -/
def detect_bytes_per_value : List (List Nat) → Option Nat
  | [] => none
  | l :: ls =>
    if l.isEmpty then detect_bytes_per_value ls
    else if l.length = 2 then some 1
    else if l.length = 8 then some 4
    else none

/-- The little-endian byte expansion `(value >> (i * 8)) & 0xFF` used by
`convert_mem_to_bin`. -/
def leBytes (k v : Nat) : List Nat :=
  (List.range k).map fun i => v / 256 ^ i % 256

/-- `convert_mem_to_bin`: every non-empty line is parsed and emitted at the
detected width, whatever its digit count; returns (value count, bytes). -/
def convert_mem_to_bin (lines : List (List Nat)) (bpv : Nat) : Nat × List Nat :=
  lines.foldl
    (fun acc l => if l.isEmpty then acc else (acc.1 + 1, acc.2 ++ leBytes bpv (hexValue l)))
    (0, [])

/-- Claim C7 as stated is false on the code: a file whose first line has 2
digits but whose second line has 4 digits is converted without any failure —
the 4-digit value `0x1234` is silently truncated to the byte `0x34`. -/
theorem convert_to_binary_counterexample :
    detect_bytes_per_value [[1, 2], [1, 2, 3, 4]] = some 1 ∧
    convert_mem_to_bin [[1, 2], [1, 2, 3, 4]] 1 = (2, [18, 52]) := by
  refine ⟨by decide, by decide⟩

/-- Claim C7 as the code actually behaves (amended): only the digit count of
the first non-empty line is inspected — 2 digits selects the 8-bit width, 8
digits the 32-bit width, and any other count makes `detect_bytes_per_value`
return `None`, upon which the file is skipped with a console warning naming
the file (no exception, no line number); lines after the first are converted
at the detected width regardless of their digit count. -/
theorem detect_bytes_first_line_only (pre : List (List Nat)) (l : List Nat)
    (rest : List (List Nat)) (hpre : ∀ p ∈ pre, p.isEmpty = true)
    (hl : l.isEmpty = false) :
    detect_bytes_per_value (pre ++ l :: rest) =
      (if l.length = 2 then some 1 else if l.length = 8 then some 4 else none) ∧
    convert_mem_to_bin [[1, 2], [1, 2, 3, 4]] 1 = (2, [18, 52]) := by
  refine ⟨?_, by decide⟩
  induction pre with
  | nil =>
    simp only [List.nil_append]
    unfold detect_bytes_per_value
    rw [hl]
    simp
  | cons p pre ih =>
    have hp := hpre p (by simp)
    simp only [List.cons_append]
    unfold detect_bytes_per_value
    rw [hp]
    simp only [if_true]
    exact ih (fun q hq => hpre q (List.mem_cons_of_mem _ hq))

/-- The amended detection theorem applied to a file whose first non-empty
line (after one blank) has 4 digits: the whole file is rejected, whatever
follows. -/
theorem detect_bytes_first_line_only_witness :
    detect_bytes_per_value ([[]] ++ [1, 2, 3, 4] :: [[1, 2]]) =
      (if ([1, 2, 3, 4] : List Nat).length = 2 then some 1
        else if ([1, 2, 3, 4] : List Nat).length = 8 then some 4 else none) :=
  (detect_bytes_first_line_only [[]] [1, 2, 3, 4] [[1, 2]]
    (by decide) (by decide)).1

/-! ## Claim C6: the comparison harness survives a short Scores read

`compare_python_vs_fpga.run_comparison` processes each sample in turn: it
computes the Python scores, reads the device scores (`read_scores_from_fpga`
returns `None` when fewer than 40 bytes arrive), writes one block per sample
and bumps exactly one of the match/mismatch/error counters.  No branch
raises. -/

/-- Per-sample outcome of the comparison, the `MATCH`/`MISMATCH (max diff)`/
`ERROR - Failed to read scores` blocks of the report. -/
inductive CmpStatus where
  | matched
  | mismatched (maxdiff : Int)
  | errored
deriving DecidableEq

/-- One sample's block of the comparison report. -/
structure CmpRecord where
  label : Int
  pyScores : List Int
  status : CmpStatus
deriving DecidableEq

/-- `read_scores_from_fpga`: `None` unless exactly 40 bytes arrive, else the
10 little-endian signed 32-bit scores (`struct.unpack` of 10 x int32). -/
def read_scores_from_fpga (resp : List Nat) : Option (List Int) :=
  if resp.length ≠ 40 then none
  else some ((List.range 10).map fun i =>
    toS32 (Int.ofNat (resp.getD (4 * i) 0 + 256 * resp.getD (4 * i + 1) 0 +
      65536 * resp.getD (4 * i + 2) 0 + 16777216 * resp.getD (4 * i + 3) 0)))

/-- `np.max(np.abs(python_scores - fpga_scores))`. -/
def maxAbsDiff (xs ys : List Int) : Int :=
  (List.zipWith (fun a b => ((a - b).natAbs : Int)) xs ys).foldl max 0

/-- A sample is its (preprocessed image, label) and the bytes the device
answered to the Scores-read request. -/
def processSample (W1 : List (List Int)) (B1 : List Int) (W2 : List (List Int))
    (B2 : List Int) (W3 : List (List Int)) (B3 : List Int)
    (sample : (List Int × Int) × List Nat) : CmpRecord :=
  let pyScores := fpga_inference_simulation sample.1.1 W1 B1 W2 B2 W3 B3
  match read_scores_from_fpga sample.2 with
  | none => ⟨sample.1.2, pyScores, CmpStatus.errored⟩
  | some fpgaScores =>
    if fpgaScores = pyScores then ⟨sample.1.2, pyScores, CmpStatus.matched⟩
    else ⟨sample.1.2, pyScores, CmpStatus.mismatched (maxAbsDiff pyScores fpgaScores)⟩

/-- One step of the `run_comparison` loop: append the sample's record and bump
the counter its branch increments. -/
def runStep (W1 : List (List Int)) (B1 : List Int) (W2 : List (List Int)) (B2 : List Int)
    (W3 : List (List Int)) (B3 : List Int)
    (st : List CmpRecord × Nat × Nat × Nat) (sample : (List Int × Int) × List Nat) :
    List CmpRecord × Nat × Nat × Nat :=
  let r := processSample W1 B1 W2 B2 W3 B3 sample
  (st.1 ++ [r],
    match r.status with
    | CmpStatus.matched => (st.2.1 + 1, st.2.2.1, st.2.2.2)
    | CmpStatus.mismatched _ => (st.2.1, st.2.2.1 + 1, st.2.2.2)
    | CmpStatus.errored => (st.2.1, st.2.2.1, st.2.2.2 + 1))

/-- `run_comparison`: fold the per-sample step over the batch, starting from
no records and zero match/mismatch/error counts. -/
def run_comparison (W1 : List (List Int)) (B1 : List Int) (W2 : List (List Int))
    (B2 : List Int) (W3 : List (List Int)) (B3 : List Int)
    (samples : List ((List Int × Int) × List Nat)) :
    List CmpRecord × Nat × Nat × Nat :=
  samples.foldl (runStep W1 B1 W2 B2 W3 B3) ([], 0, 0, 0)

/-- Boolean test for a matched record. -/
def isMatched : CmpStatus → Bool
  | CmpStatus.matched => true
  | _ => false

/-- Boolean test for a mismatched record. -/
def isMismatched : CmpStatus → Bool
  | CmpStatus.mismatched _ => true
  | _ => false

/-- Boolean test for an error record. -/
def isErrored : CmpStatus → Bool
  | CmpStatus.errored => true
  | _ => false

/-- The comparison loop from any starting state: records accumulate by `map`
(each sample's record depends only on that sample) and each counter advances
by the number of records of its kind. -/
theorem run_comparison_aux (W1 : List (List Int)) (B1 : List Int) (W2 : List (List Int))
    (B2 : List Int) (W3 : List (List Int)) (B3 : List Int)
    (samples : List ((List Int × Int) × List Nat))
    (recs : List CmpRecord) (m mm e : Nat) :
    samples.foldl (runStep W1 B1 W2 B2 W3 B3) (recs, m, mm, e) =
      (recs ++ samples.map (processSample W1 B1 W2 B2 W3 B3),
        m + (samples.map (processSample W1 B1 W2 B2 W3 B3)).countP
          (fun r => isMatched r.status),
        mm + (samples.map (processSample W1 B1 W2 B2 W3 B3)).countP
          (fun r => isMismatched r.status),
        e + (samples.map (processSample W1 B1 W2 B2 W3 B3)).countP
          (fun r => isErrored r.status)) := by
  induction samples generalizing recs m mm e with
  | nil => simp
  | cons s samples ih =>
    simp only [List.foldl_cons, List.map_cons, List.countP_cons]
    rw [runStep]
    rcases hst : (processSample W1 B1 W2 B2 W3 B3 s).status with _ | d | _ <;>
      simp only [hst, ih, Prod.mk.injEq, isMatched, isMismatched, isErrored,
        List.append_assoc, List.singleton_append, if_true, if_false] <;>
      refine ⟨trivial, ?_, ?_, ?_⟩ <;> simp <;> omega

/-- Claim C6: if the device answers sample `k` of a batch with a 30-byte
Scores response, that sample record has status `errored`, the error counter
counts exactly the errored records (so this one is counted), the harness
still emits one record per queued sample, and every other sample record is
exactly what processing that sample alone produces — the short response
leaves the rest of the batch untouched. -/
theorem short_scores_response_isolated (W1 : List (List Int)) (B1 : List Int)
    (W2 : List (List Int)) (B2 : List Int) (W3 : List (List Int)) (B3 : List Int)
    (samples : List ((List Int × Int) × List Nat)) (k : Nat)
    (hk : k < samples.length)
    (hshort : (samples.getD k (([], 0), [])).2.length = 30) :
    (run_comparison W1 B1 W2 B2 W3 B3 samples).1.length = samples.length ∧
    ((run_comparison W1 B1 W2 B2 W3 B3 samples).1.getD k
        ⟨0, [], CmpStatus.matched⟩).status = CmpStatus.errored ∧
    (run_comparison W1 B1 W2 B2 W3 B3 samples).2.2.2 =
      ((run_comparison W1 B1 W2 B2 W3 B3 samples).1.countP
        (fun r => isErrored r.status)) ∧
    1 ≤ (run_comparison W1 B1 W2 B2 W3 B3 samples).2.2.2 ∧
    (∀ j, j < samples.length →
      (run_comparison W1 B1 W2 B2 W3 B3 samples).1.getD j ⟨0, [], CmpStatus.matched⟩ =
        processSample W1 B1 W2 B2 W3 B3 (samples.getD j (([], 0), []))) := by
  have hrun := run_comparison_aux W1 B1 W2 B2 W3 B3 samples [] 0 0 0
  rw [run_comparison, hrun]
  simp only [List.nil_append, Nat.zero_add]
  have hgetD : ∀ j, j < samples.length →
      (samples.map (processSample W1 B1 W2 B2 W3 B3)).getD j ⟨0, [], CmpStatus.matched⟩ =
        processSample W1 B1 W2 B2 W3 B3 (samples.getD j (([], 0), [])) := by
    intro j hj
    rw [List.getD_eq_getElem _ _ (by simpa using hj),
      List.getD_eq_getElem _ _ hj, List.getElem_map]
  have hkerr : (processSample W1 B1 W2 B2 W3 B3 (samples.getD k (([], 0), []))).status =
      CmpStatus.errored := by
    unfold processSample read_scores_from_fpga
    rw [if_pos (by omega)]
  refine ⟨by simp, by rw [hgetD k hk, hkerr], trivial, ?_, hgetD⟩
  have hmem : processSample W1 B1 W2 B2 W3 B3 (samples.getD k (([], 0), [])) ∈
      samples.map (processSample W1 B1 W2 B2 W3 B3) := by
    rw [← hgetD k hk, List.getD_eq_getElem _ _ (by simpa using hk)]
    exact List.getElem_mem _
  have hpos : 0 < (samples.map (processSample W1 B1 W2 B2 W3 B3)).countP
      (fun r => isErrored r.status) := by
    rw [List.countP_pos_iff]
    refine ⟨_, hmem, ?_⟩
    rw [hkerr]
    rfl
  omega

/-- The harness theorem applied to a two-sample batch whose second sample gets
a 30-byte response: its record is the error record. -/
theorem short_scores_response_isolated_witness :
    ((run_comparison [] [] [] [] [] []
        [(([], 0), List.replicate 40 0), (([], 1), List.replicate 30 0)]).1.getD 1
      ⟨0, [], CmpStatus.matched⟩).status = CmpStatus.errored :=
  (short_scores_response_isolated [] [] [] [] [] []
    [(([], 0), List.replicate 40 0), (([], 1), List.replicate 30 0)] 1
    (by decide) (by decide)).2.1

/-! ## Claim C8: the Conv2D layer (`cnn/testing/testing_python_model.py`)

`convolve_layer` unpacks the kernel shape but never uses it: the output
spatial size is hard-coded as `h - 2, w - 2` and every window slice is
`r:r+3, c:c+3`.  The window/kernel product `window * w_kernel` is numpy
elementwise multiplication with broadcasting, modelled here for the kernel
shapes the slicing can meet (a dimension of the kernel is 1 or matches the
3-wide window). -/

/-- Element getter for a matrix (out-of-range reads default to 0; all reads
in the theorems below are in range). -/
def get2 (m : List (List Int)) (i j : Nat) : Int := (m.getD i []).getD j 0

/-- Element getter for a 3-dimensional volume. -/
def get3 (v : List (List (List Int))) (f r c : Nat) : Int :=
  ((v.getD f []).getD r []).getD c 0

/-- Numpy broadcast multiply of one window row with one kernel row: a
length-1 kernel row is broadcast as a scalar, otherwise the rows are
multiplied elementwise. -/
def browMul (row brow : List Int) : List Int :=
  if brow.length = 1 then row.map (fun x => x * brow.headD 0)
  else List.zipWith (fun x y => x * y) row brow

/-- Numpy broadcast multiply `window * w_kernel` of two matrices: a
single-row kernel is broadcast across the window rows, otherwise rows are
paired. -/
def bmul2 (a b : List (List Int)) : List (List Int) :=
  if b.length = 1 then a.map (fun row => browMul row (b.headD []))
  else List.zipWith browMul a b

/-- `np.sum` of a matrix. -/
def sum2 (m : List (List Int)) : Int := (m.map List.sum).sum

/-- The window slice `input_vol[ch, r:r+3, c:c+3]` — the 3 is hard-coded in
the source. -/
def sliceWindow (plane : List (List Int)) (r c : Nat) : List (List Int) :=
  ((plane.drop r).take 3).map fun row => (row.drop c).take 3

/-- The channel loop `for ch in range(in_ch): acc += np.sum(window * w_kernel)`
of `convolve_layer`. -/
def convAcc (input : List (List (List Int))) (weights : List (List (List (List Int))))
    (f r c : Nat) : Int :=
  (List.range input.length).foldl
    (fun acc ch =>
      acc + sum2 (bmul2 (sliceWindow (input.getD ch []) r c) ((weights.getD f []).getD ch []))) 0

/-- The post-accumulation pipeline of `convolve_layer`: arithmetic right
shift (Python `>>`, floor division by `2^shift`), ReLU, saturation at 127. -/
def convPipeline (acc : Int) (shift : Nat) : Int :=
  let acc1 := Int.fdiv acc (2 ^ shift)
  let acc2 := if acc1 < 0 then 0 else acc1
  if acc2 > 127 then 127 else acc2

/-- `convolve_layer`: for each filter and each of the hard-coded
`(h-2) x (w-2)` output positions, accumulate over channels, add the bias and
run the shift/ReLU/saturate pipeline. -/
def convolve_layer (input : List (List (List Int))) (weights : List (List (List (List Int))))
    (biases : List Int) (shift : Nat) : List (List (List Int)) :=
  let h := (input.getD 0 []).length
  let w := ((input.getD 0 []).getD 0 []).length
  (List.range weights.length).map fun f =>
    (List.range (h - 2)).map fun r =>
      (List.range (w - 2)).map fun c =>
        convPipeline (convAcc input weights f r c + biases.getD f 0) shift

/-- The (channels, height, width) shape of a volume. -/
def shape3 (v : List (List (List Int))) : Nat × Nat × Nat :=
  (v.length, (v.getD 0 []).length, ((v.getD 0 []).getD 0 []).length)

/-- The dot product of one 3x3 window of a plane with one 3x3 kernel, as the
claim words it. -/
def window9 (plane kernel : List (List Int)) (r c : Nat) : Int :=
  get2 plane r c * get2 kernel 0 0 + get2 plane r (c + 1) * get2 kernel 0 1 +
  get2 plane r (c + 2) * get2 kernel 0 2 +
  get2 plane (r + 1) c * get2 kernel 1 0 + get2 plane (r + 1) (c + 1) * get2 kernel 1 1 +
  get2 plane (r + 1) (c + 2) * get2 kernel 1 2 +
  get2 plane (r + 2) c * get2 kernel 2 0 + get2 plane (r + 2) (c + 1) * get2 kernel 2 1 +
  get2 plane (r + 2) (c + 2) * get2 kernel 2 2

/-- Modelled from the claim: the dot product over all input channels and the
3x3 kernel window at one output position. -/
def conv3Spec (input : List (List (List Int))) (weights : List (List (List (List Int))))
    (f r c : Nat) : Int :=
  ((List.range input.length).map fun ch =>
    window9 (input.getD ch []) ((weights.getD f []).getD ch []) r c).sum

/-- An in-range `getD` lookup is a member of the list (any element type). -/
theorem getD_mem_poly {α : Type} (l : List α) (d : α) (k : Nat) (h : k < l.length) :
    l.getD k d ∈ l := by
  rw [List.getD_eq_getElem l d h]
  exact List.getElem_mem h

/-- A 3-element slice of a long-enough list, written with its default-read
elements. -/
theorem take3_drop {α : Type} (l : List α) (d : α) (c : Nat) (h : c + 3 ≤ l.length) :
    (l.drop c).take 3 = [l.getD c d, l.getD (c + 1) d, l.getD (c + 2) d] := by
  have h1 : l.drop c = l.getD c d :: l.drop (c + 1) := by
    rw [List.getD_eq_getElem _ _ (by omega)]
    exact List.drop_eq_getElem_cons (by omega)
  have h2 : l.drop (c + 1) = l.getD (c + 1) d :: l.drop (c + 2) := by
    rw [List.getD_eq_getElem _ _ (by omega)]
    exact List.drop_eq_getElem_cons (by omega)
  have h3 : l.drop (c + 2) = l.getD (c + 2) d :: l.drop (c + 3) := by
    rw [List.getD_eq_getElem _ _ (by omega)]
    exact List.drop_eq_getElem_cons (by omega)
  rw [h1, h2, h3]
  simp

/-- An accumulating fold is the sum of the mapped list. -/
theorem foldl_add_eq_sum {α : Type} (l : List α) (g : α → Int) (a : Int) :
    l.foldl (fun x y => x + g y) a = a + (l.map g).sum := by
  induction l generalizing a with
  | nil => simp
  | cons h t ih => simp [ih, add_assoc]

/-- One channel's contribution: for a rectangular plane and a 3x3 kernel the
broadcast product of the window with the kernel sums to the 9-term window dot
product. -/
theorem sum2_bmul2_window (plane k : List (List Int)) (r c h w : Nat)
    (hlen : plane.length = h) (hrows : ∀ row ∈ plane, row.length = w)
    (hr : r + 3 ≤ h) (hc : c + 3 ≤ w)
    (hk3 : k.length = 3) (hkrows : ∀ krow ∈ k, krow.length = 3) :
    sum2 (bmul2 (sliceWindow plane r c) k) = window9 plane k r c := by
  have hq0 : (plane.getD r []).length = w := hrows _ (getD_mem_poly plane [] r (by omega))
  have hq1 : (plane.getD (r + 1) []).length = w :=
    hrows _ (getD_mem_poly plane [] (r + 1) (by omega))
  have hq2 : (plane.getD (r + 2) []).length = w :=
    hrows _ (getD_mem_poly plane [] (r + 2) (by omega))
  have hwin : sliceWindow plane r c =
      [[get2 plane r c, get2 plane r (c + 1), get2 plane r (c + 2)],
       [get2 plane (r + 1) c, get2 plane (r + 1) (c + 1), get2 plane (r + 1) (c + 2)],
       [get2 plane (r + 2) c, get2 plane (r + 2) (c + 1), get2 plane (r + 2) (c + 2)]] := by
    unfold sliceWindow
    rw [take3_drop plane [] r (by omega)]
    simp only [List.map_cons, List.map_nil]
    rw [take3_drop (plane.getD r []) 0 c (by omega),
      take3_drop (plane.getD (r + 1) []) 0 c (by omega),
      take3_drop (plane.getD (r + 2) []) 0 c (by omega)]
    rfl
  rcases k with _ | ⟨k0, _ | ⟨k1, _ | ⟨k2, _ | _⟩⟩⟩ <;> simp at hk3
  have hk0 : k0.length = 3 := hkrows k0 (by simp)
  have hk1 : k1.length = 3 := hkrows k1 (by simp)
  have hk2 : k2.length = 3 := hkrows k2 (by simp)
  rcases k0 with _ | ⟨b00, _ | ⟨b01, _ | ⟨b02, _ | _⟩⟩⟩ <;> simp at hk0
  rcases k1 with _ | ⟨b10, _ | ⟨b11, _ | ⟨b12, _ | _⟩⟩⟩ <;> simp at hk1
  rcases k2 with _ | ⟨b20, _ | ⟨b21, _ | ⟨b22, _ | _⟩⟩⟩ <;> simp at hk2
  rw [hwin]
  simp [bmul2, browMul, sum2, window9, get2]
  ring

/-- The channel fold of `convolve_layer` equals the claim's dot product over
channels and window, for 3x3 kernels on a rectangular input. -/
theorem convAcc_eq_conv3Spec (input : List (List (List Int)))
    (weights : List (List (List (List Int)))) (f r c h w : Nat)
    (hin : ∀ plane ∈ input, plane.length = h ∧ ∀ row ∈ plane, row.length = w)
    (hW : ∀ wf ∈ weights, wf.length = input.length ∧
      ∀ k ∈ wf, k.length = 3 ∧ ∀ krow ∈ k, krow.length = 3)
    (hf : f < weights.length) (hr : r + 3 ≤ h) (hc : c + 3 ≤ w) :
    convAcc input weights f r c = conv3Spec input weights f r c := by
  unfold convAcc conv3Spec
  rw [foldl_add_eq_sum, zero_add]
  congr 1
  apply List.map_congr_left
  intro ch hch
  have hch2 : ch < input.length := List.mem_range.mp hch
  have hplane := hin _ (getD_mem_poly input [] ch hch2)
  have hwf := hW _ (getD_mem_poly weights [] f hf)
  have hker := hwf.2 _ (getD_mem_poly (weights.getD f []) [] ch (by omega))
  exact sum2_bmul2_window _ _ r c h w hplane.1 hplane.2 hr hc hker.1 hker.2

/-- `getD` through a map over `List.range`. -/
theorem getD_range_map {α : Type} (n : Nat) (g : Nat → α) (i : Nat) (d : α) (h : i < n) :
    ((List.range n).map g).getD i d = g i := by
  simp [List.getD, List.getElem?_map, List.getElem?_range, h]

/-- Claim C8 as stated is false on the code: `convolve_layer` ignores the
declared kernel size.  With a 1x3x3 input of ones and a single 1x1 kernel
`[[1]]` the claim predicts an output of shape `(1, 3-1+1, 3-1+1) = (1,3,3)`,
but the code still slides a 3x3 window and produces the single broadcast
window sum `9` in shape `(1,1,1)`. -/
theorem convolve_layer_counterexample :
    convolve_layer [[[1, 1, 1], [1, 1, 1], [1, 1, 1]]] [[[[1]]]] [0] 0 = [[[9]]] ∧
    shape3 (convolve_layer [[[1, 1, 1], [1, 1, 1], [1, 1, 1]]] [[[[1]]]] [0] 0) = (1, 1, 1) ∧
    (1, 1, 1) ≠ ((1, 3 - 1 + 1, 3 - 1 + 1) : Nat × Nat × Nat) := by
  refine ⟨by decide, by decide, by decide⟩

/-- Claim C8 restricted to the kernel size the code implements (amended): for
every rectangular input volume `(C_in, H, W)` with `H, W ≥ 3` and kernel
tensor `(C_out, C_in, 3, 3)`, the layer produces the shape
`(C_out, H-2, W-2)` (which is `(C_out, H-kh+1, W-kw+1)` for `kh = kw = 3`),
and each output element is the dot product over all input channels and the
3x3 kernel window, plus the bias, before the shift/ReLU/clamp pipeline. -/
theorem convolve_layer_3x3 (input : List (List (List Int)))
    (weights : List (List (List (List Int)))) (biases : List Int) (shift : Nat) (h w : Nat)
    (hin : ∀ plane ∈ input, plane.length = h ∧ ∀ row ∈ plane, row.length = w)
    (hW : ∀ wf ∈ weights, wf.length = input.length ∧
      ∀ k ∈ wf, k.length = 3 ∧ ∀ krow ∈ k, krow.length = 3)
    (hh : 3 ≤ h) (hw3 : 3 ≤ w) (hinne : input ≠ []) (hwne : weights ≠ []) :
    shape3 (convolve_layer input weights biases shift) = (weights.length, h - 2, w - 2) ∧
    (∀ f r c, f < weights.length → r < h - 2 → c < w - 2 →
      get3 (convolve_layer input weights biases shift) f r c =
        convPipeline (conv3Spec input weights f r c + biases.getD f 0) shift) := by
  have hin0 : 0 < input.length := List.length_pos.mpr hinne
  have hw0 : 0 < weights.length := List.length_pos.mpr hwne
  have hplane0 := hin _ (getD_mem_poly input [] 0 hin0)
  have hh0 : (input.getD 0 []).length = h := hplane0.1
  have hrow0 : ((input.getD 0 []).getD 0 []).length = w :=
    hplane0.2 _ (getD_mem_poly (input.getD 0 []) [] 0 (by omega))
  constructor
  · unfold shape3 convolve_layer
    simp only [hh0, hrow0, Prod.mk.injEq]
    refine ⟨by simp, ?_, ?_⟩
    · rw [getD_range_map _ _ 0 [] hw0]
      simp
    · rw [getD_range_map _ _ 0 [] hw0,
        getD_range_map _ _ 0 [] (by omega : 0 < h - 2)]
      simp
  · intro f r c hf hr hc
    unfold get3 convolve_layer
    simp only [hh0, hrow0]
    rw [getD_range_map _ _ f [] hf, getD_range_map _ _ r [] hr,
      getD_range_map _ _ c 0 hc]
    rw [convAcc_eq_conv3Spec input weights f r c h w hin hW hf (by omega) (by omega)]

/-- The amended Conv2D theorem applied to a 1x3x3 input of ones and one 3x3
kernel of ones: shape `(1,1,1)` and the single element before and after the
pipeline. -/
theorem convolve_layer_3x3_witness :
    shape3 (convolve_layer [[[1, 1, 1], [1, 1, 1], [1, 1, 1]]]
      [[[[1, 1, 1], [1, 1, 1], [1, 1, 1]]]] [0] 0) = (1, 3 - 2, 3 - 2) ∧
    get3 (convolve_layer [[[1, 1, 1], [1, 1, 1], [1, 1, 1]]]
        [[[[1, 1, 1], [1, 1, 1], [1, 1, 1]]]] [0] 0) 0 0 0 =
      convPipeline (conv3Spec [[[1, 1, 1], [1, 1, 1], [1, 1, 1]]]
        [[[[1, 1, 1], [1, 1, 1], [1, 1, 1]]]] 0 0 0 + [(0 : Int)].getD 0 0) 0 :=
  ⟨(convolve_layer_3x3 [[[1, 1, 1], [1, 1, 1], [1, 1, 1]]]
      [[[[1, 1, 1], [1, 1, 1], [1, 1, 1]]]] [0] 0 3 3
      (by decide) (by decide) (by decide) (by decide) (by decide) (by decide)).1,
    (convolve_layer_3x3 [[[1, 1, 1], [1, 1, 1], [1, 1, 1]]]
      [[[[1, 1, 1], [1, 1, 1], [1, 1, 1]]]] [0] 0 3 3
      (by decide) (by decide) (by decide) (by decide) (by decide) (by decide)).2
      0 0 0 (by decide) (by decide) (by decide)⟩

end Inferencja
